import Mathlib

/-!
Shallow embedding of talisman's metrics/distance/hamming module
(src/metrics/distance/hamming.js) and proofs about it.

Sequences are modelled as lists over a type with decidable equality; the
JavaScript identity test a === b on sequence values is modelled as decidable
value equality (for strings, === is value equality; the source comments note
the fast path is behaviourally equivalent to the scan in any case).
JavaScript numbers fed to bitwise operators are modelled as integers, and
the implicit ToInt32 coercion performed by ^ and & is made explicit as the
32-bit residue pattern. Fractional results are modelled as rationals.
-/

namespace Talisman

variable {α : Type*} [DecidableEq α]

/-- Mismatch-counting loop shared by hamming and normalizedDistance: scans
positions of the first list (the shorter one at every call site) and counts
indices where the two lists differ. -/
def mismatches : List α → List α → Nat
  | [], _ => 0
  | _, [] => 0
  | x :: xs, y :: ys => (if x ≠ y then 1 else 0) + mismatches xs ys

/-- Error message thrown by hamming on sequences of unequal length. -/
def lengthError : String :=
  "talisman/metrics/distance/hamming: given sequences are not of equal length."

/-- Function hamming from the source: fast path on identical inputs, length
check throwing lengthError, then the counting loop. -/
def hamming (a b : List α) : Except String Nat :=
  if a = b then Except.ok 0
  else if a.length ≠ b.length then Except.error lengthError
  else Except.ok (mismatches a b)

/-- Count of positions i < length a at which a and b differ, phrased over
index ranges as in the specification. -/
def posMismatch (a b : List α) : Nat :=
  (List.range a.length).countP fun i => decide (a.get? i ≠ b.get? i)

/-- Count of positions i < min of the lengths at which a and b differ,
phrased over index ranges as in the specification. -/
def countDiff (a b : List α) : Nat :=
  (List.range (min a.length b.length)).countP fun i => decide (a.get? i ≠ b.get? i)

/-- Function normalizedDistance from the source: fast path on identical
inputs, swap so the shorter list is scanned, seed the distance with the
length gap, run the counting loop, divide by the longer length. The swap is
inlined into the two branches of the length comparison. -/
def normalizedDistance (a b : List α) : ℚ :=
  if a = b then 0
  else if a.length > b.length then
    (((a.length - b.length) + mismatches b a : ℕ) : ℚ) / (a.length : ℚ)
  else
    (((b.length - a.length) + mismatches a b : ℕ) : ℚ) / (b.length : ℚ)

/-- Function normalizedSimilarity from the source. -/
def normalizedSimilarity (a b : List α) : ℚ :=
  1 - normalizedDistance a b

/-- Unsigned 32-bit residue of an integer: the bit pattern produced by the
ToInt32 coercion JavaScript applies to both operands of a bitwise operator.
The two's-complement pattern of ToInt32(a) read as an unsigned number is
exactly a mod 2^32. -/
def int32Pattern (a : ℤ) : ℕ :=
  (a % (2 ^ 32 : ℤ)).toNat

/-- Clear-lowest-set-bit loop of the bitwise function, acting on the unsigned
pattern of the xor value: while the value is nonzero, replace it by
x AND (x - 1) and count an iteration. On patterns, the JavaScript step
xor = xor AND (xor - 1) is x AND (x - 1) in naturals, since for x nonzero the
pattern of xor - 1 is x - 1. Termination: x AND (x - 1) is at most x - 1. -/
def bitLoop (x : ℕ) : ℕ :=
  if h : x = 0 then 0
  else 1 + bitLoop (x &&& (x - 1))
termination_by x
decreasing_by
  exact Nat.lt_of_le_of_lt Nat.and_le_right (Nat.sub_lt (Nat.pos_of_ne_zero h) Nat.one_pos)

/-- Function bitwise from the source: xor the two 32-bit operands and count
set bits with the clear-lowest-set-bit loop. -/
def bitwise (a b : ℤ) : ℕ :=
  bitLoop (int32Pattern a ^^^ int32Pattern b)

/-- Fuel-indexed rendition of bitLoop, used only to evaluate the loop on
concrete inputs; bitLoop_eq_fuel proves it agrees with bitLoop whenever the
fuel covers the iteration count. -/
def bitLoopFuel : ℕ → ℕ → ℕ
  | 0, _ => 0
  | f + 1, x => if x = 0 then 0 else 1 + bitLoopFuel f (x &&& (x - 1))

/-- Population count: the number of set bits of a natural number. -/
def popcount (n : ℕ) : ℕ :=
  if n = 0 then 0 else n % 2 + popcount (n / 2)
termination_by n
decreasing_by
  exact Nat.div_lt_self (Nat.pos_of_ne_zero (by assumption)) Nat.one_lt_two

theorem mismatches_self : ∀ a : List α, mismatches a a = 0
  | [] => rfl
  | x :: xs => by simp [mismatches, mismatches_self xs]

theorem mismatches_comm : ∀ a b : List α, mismatches a b = mismatches b a
  | [], [] => rfl
  | [], _ :: _ => rfl
  | _ :: _, [] => rfl
  | x :: xs, y :: ys => by
    by_cases hxy : x = y
    · subst hxy; simp [mismatches, mismatches_comm xs ys]
    · simp [mismatches, hxy, Ne.symm hxy, mismatches_comm xs ys]

theorem mismatches_le_left : ∀ a b : List α, mismatches a b ≤ a.length
  | [], _ => by simp [mismatches]
  | _ :: _, [] => by simp [mismatches]
  | x :: xs, y :: ys => by
    have h := mismatches_le_left xs ys
    by_cases hxy : x = y <;> simp [mismatches, hxy] <;> omega

theorem mismatches_eq_countDiff : ∀ a b : List α, mismatches a b = countDiff a b
  | [], b => by simp [mismatches, countDiff]
  | _ :: _, [] => by simp [mismatches, countDiff]
  | x :: xs, y :: ys => by
    have ih := mismatches_eq_countDiff xs ys
    have hmin : min (x :: xs).length (y :: ys).length = min xs.length ys.length + 1 := by
      simp only [List.length_cons]
      omega
    have hc : ((fun i => decide ((x :: xs).get? i ≠ (y :: ys).get? i)) ∘ Nat.succ)
        = fun i => decide (xs.get? i ≠ ys.get? i) := by
      funext i
      simp
    simp only [countDiff] at ih ⊢
    rw [hmin, List.range_succ_eq_map, List.countP_cons, List.countP_map, hc, ← ih]
    simp only [mismatches]
    by_cases hxy : x = y
    all_goals simp [hxy]
    all_goals omega

theorem countDiff_comm (a b : List α) : countDiff a b = countDiff b a := by
  rw [← mismatches_eq_countDiff, ← mismatches_eq_countDiff, mismatches_comm]

theorem countDiff_le_min (a b : List α) :
    countDiff a b ≤ min a.length b.length := by
  have h := List.countP_le_length
    (fun i => decide (a.get? i ≠ b.get? i)) (l := List.range (min a.length b.length))
  simpa [countDiff] using h

theorem hamming_eq_ok {a b : List α} (h : a.length = b.length) :
    hamming a b = Except.ok (mismatches a b) := by
  unfold hamming
  by_cases hab : a = b
  · subst hab; simp [mismatches_self]
  · simp [hab, h]

theorem countDiff_self (a : List α) : countDiff a a = 0 := by
  rw [← mismatches_eq_countDiff, mismatches_self]

theorem normalizedDistance_eq (a b : List α) :
    normalizedDistance a b =
      ((max a.length b.length - min a.length b.length + countDiff a b : ℕ) : ℚ) /
        ((max a.length b.length : ℕ) : ℚ) := by
  unfold normalizedDistance
  by_cases hab : a = b
  · subst hab
    simp [countDiff_self]
  · rw [if_neg hab]
    by_cases hlen : a.length > b.length
    · rw [if_pos hlen]
      have hmax : max a.length b.length = a.length := Nat.max_eq_left (le_of_lt hlen)
      have hmin : min a.length b.length = b.length := Nat.min_eq_right (le_of_lt hlen)
      rw [hmax, hmin, mismatches_eq_countDiff, countDiff_comm]
    · rw [if_neg hlen]
      have hle : a.length ≤ b.length := Nat.le_of_not_lt hlen
      have hmax : max a.length b.length = b.length := Nat.max_eq_right hle
      have hmin : min a.length b.length = a.length := Nat.min_eq_left hle
      rw [hmax, hmin, mismatches_eq_countDiff]

theorem popcount_rec (y : ℕ) : popcount y = y % 2 + popcount (y / 2) := by
  by_cases h : y = 0
  · subst h
    simp [popcount]
  · conv_lhs => rw [popcount]
    rw [if_neg h]

theorem popcount_and_sub_one : ∀ x : ℕ, x ≠ 0 → popcount (x &&& (x - 1)) + 1 = popcount x := by
  intro x
  induction x using Nat.strong_induction_on with
  | _ x ih =>
    intro hx
    rcases Nat.mod_two_eq_zero_or_one x with hpar | hpar
    · have hq : x / 2 ≠ 0 := by omega
      have hm : (x &&& (x - 1)) % 2 = 0 := by
        rcases Nat.mod_two_eq_zero_or_one (x &&& (x - 1)) with h | h
        · exact h
        · rcases Nat.and_mod_two_eq_one.1 h with ⟨h1, _⟩
          omega
      have hdiv : (x &&& (x - 1)) / 2 = (x / 2) &&& (x / 2 - 1) := by
        rw [Nat.and_div_two]
        congr 1
        omega
      have hrec := popcount_rec (x &&& (x - 1))
      have hx2 := ih (x / 2) (by omega) hq
      rw [popcount_rec x, hrec, hm, hdiv]
      omega
    · have hm : (x &&& (x - 1)) % 2 = 0 := by
        rcases Nat.mod_two_eq_zero_or_one (x &&& (x - 1)) with h | h
        · exact h
        · rcases Nat.and_mod_two_eq_one.1 h with ⟨_, h2⟩
          omega
      have hdiv : (x &&& (x - 1)) / 2 = x / 2 := by
        rw [Nat.and_div_two]
        have : (x - 1) / 2 = x / 2 := by omega
        rw [this, Nat.and_self]
      rw [popcount_rec x, popcount_rec (x &&& (x - 1)), hm, hdiv]
      omega

theorem popcount_pos {x : ℕ} (hx : x ≠ 0) : 1 ≤ popcount x := by
  have h := popcount_and_sub_one x hx
  omega

theorem bitLoop_eq_popcount : ∀ x : ℕ, bitLoop x = popcount x := by
  intro x
  induction x using Nat.strong_induction_on with
  | _ x ih =>
    by_cases hx : x = 0
    · subst hx
      rw [bitLoop, popcount]
      simp
    · have hlt : x &&& (x - 1) < x :=
        Nat.lt_of_le_of_lt Nat.and_le_right (Nat.sub_lt (Nat.pos_of_ne_zero hx) Nat.one_pos)
      rw [bitLoop, dif_neg hx, ih _ hlt]
      have h := popcount_and_sub_one x hx
      omega

theorem bitLoop_eq_fuel : ∀ (f x : ℕ), popcount x ≤ f → bitLoop x = bitLoopFuel f x
  | 0, x, h => by
    have hx : x = 0 := by
      by_contra hc
      have := popcount_pos hc
      omega
    subst hx
    rw [bitLoop]
    simp [bitLoopFuel]
  | f + 1, x, h => by
    by_cases hx : x = 0
    · subst hx
      rw [bitLoop]
      simp [bitLoopFuel]
    · have hstep := popcount_and_sub_one x hx
      have hle : popcount (x &&& (x - 1)) ≤ f := by omega
      rw [bitLoop, dif_neg hx, bitLoop_eq_fuel f _ hle]
      simp [bitLoopFuel, hx]

theorem popcount_le : ∀ (w p : ℕ), p < 2 ^ w → popcount p ≤ w
  | 0, p, h => by
    have hp : p = 0 := by omega
    subst hp
    simp [popcount]
  | w + 1, p, h => by
    by_cases hp : p = 0
    · subst hp
      simp [popcount]
    · have hdiv : p / 2 < 2 ^ w := by
        have h2 : (2 : ℕ) ^ (w + 1) = 2 ^ w * 2 := by ring
        omega
      have := popcount_le w (p / 2) hdiv
      rw [popcount_rec p]
      omega

theorem mismatches_triangle : ∀ (a b c : List α), a.length = b.length → b.length = c.length →
    mismatches a c ≤ mismatches a b + mismatches b c
  | [], _, _, _, _ => by simp [mismatches]
  | _ :: _, [], _, h1, _ => by simp at h1
  | _ :: _, _ :: _, [], _, h2 => by simp at h2
  | x :: xs, y :: ys, z :: zs, h1, h2 => by
    simp only [List.length_cons] at h1 h2
    have ih := mismatches_triangle xs ys zs (by omega) (by omega)
    have hhead : (if x ≠ z then 1 else 0)
        ≤ (if x ≠ y then 1 else 0) + ((if y ≠ z then 1 else 0) : ℕ) := by
      by_cases hxy : x = y
      · subst hxy
        simp
      · by_cases hyz : y = z
        · subst hyz
          simp [hxy]
        · rw [if_pos hxy, if_pos hyz]
          split <;> omega
    simp only [mismatches]
    omega

theorem hamming_comm (a b : List α) : hamming a b = hamming b a := by
  unfold hamming
  by_cases hab : a = b
  · subst hab
    simp
  · have hba : ¬b = a := fun h => hab h.symm
    rw [if_neg hab, if_neg hba]
    by_cases hlen : a.length = b.length
    · rw [if_neg (by omega), if_neg (by omega), mismatches_comm]
    · rw [if_pos (by omega), if_pos (by omega)]

theorem int32Pattern_lt (a : ℤ) : int32Pattern a < 2 ^ 32 := by
  unfold int32Pattern
  have hpos : (0 : ℤ) < 2 ^ 32 := by positivity
  have h1 : a % (2 ^ 32 : ℤ) < 2 ^ 32 := Int.emod_lt_of_pos a hpos
  have h2 : (0 : ℤ) ≤ a % (2 ^ 32 : ℤ) := Int.emod_nonneg a (by positivity)
  have := (Int.toNat_lt h2 (n := 2 ^ 32)).2 (by exact_mod_cast h1)
  exact_mod_cast this

/-- Claim C1: for every pair of sequences of equal length, hamming returns the
count of positions i (0 <= i < length a) where the sequences differ; in
particular hamming "karolin" "kathrin" is 3. -/
theorem claim1_hamming_counts :
    (∀ a b : List α, a.length = b.length → hamming a b = Except.ok (posMismatch a b)) ∧
    hamming "karolin".toList "kathrin".toList = Except.ok 3 := by
  constructor
  · intro a b h
    rw [hamming_eq_ok h, mismatches_eq_countDiff]
    congr 1
    unfold countDiff posMismatch
    rw [h, Nat.min_self]
  · rfl

theorem claim1_witness :
    (['a', 'b'] : List Char).length = (['a', 'c'] : List Char).length ∧
    hamming (['a', 'b'] : List Char) ['a', 'c'] = Except.ok (posMismatch ['a', 'b'] ['a', 'c']) :=
  ⟨rfl, claim1_hamming_counts.1 ['a', 'b'] ['a', 'c'] rfl⟩

/-- Claim C2: hamming fails with an error exactly when the lengths differ, the
only error it can carry is the length-mismatch message, and on equal-length
inputs it never fails. The remaining operations (normalizedDistance,
normalizedSimilarity, bitwise) are total functions of their Lean types, so
they cannot fail. -/
theorem claim2_error_iff : ∀ a b : List α,
    ((∃ e, hamming a b = Except.error e) ↔ a.length ≠ b.length) ∧
    (∀ e, hamming a b = Except.error e → e = lengthError) := by
  intro a b
  unfold hamming
  by_cases hab : a = b
  · subst hab
    simp
  · by_cases hlen : a.length = b.length
    · simp [hab, hlen]
    · simp [hab, hlen]

theorem claim2_witness :
    (['q'] : List Char).length ≠ ([] : List Char).length ∧
    (∃ e, hamming (['q'] : List Char) [] = Except.error e) :=
  ⟨by decide, (claim2_error_iff (['q'] : List Char) []).1.mpr (by decide)⟩

/-- Claim C3: normalizedDistance equals the length gap plus the number of
mismatching positions of the shared prefix, divided by the longer length; in
particular normalizedDistance "ab" "abc" is 1/3 and normalizedSimilarity
"ab" "abc" is 2/3. -/
theorem claim3_normalized_formula :
    (∀ a b : List α, normalizedDistance a b =
      (|(a.length : ℚ) - (b.length : ℚ)| + (countDiff a b : ℚ)) /
        ((max a.length b.length : ℕ) : ℚ)) ∧
    normalizedDistance "ab".toList "abc".toList = 1 / 3 ∧
    normalizedSimilarity "ab".toList "abc".toList = 2 / 3 := by
  refine ⟨fun a b => ?_, ?_, ?_⟩
  · rw [normalizedDistance_eq]
    congr 1
    have habs : |(a.length : ℚ) - (b.length : ℚ)|
        = ((max a.length b.length - min a.length b.length : ℕ) : ℚ) := by
      rcases le_total a.length b.length with h | h
      · rw [Nat.max_eq_right h, Nat.min_eq_left h, Nat.cast_sub h,
          abs_of_nonpos (sub_nonpos.2 (by exact_mod_cast h)), neg_sub]
      · rw [Nat.max_eq_left h, Nat.min_eq_right h, Nat.cast_sub h,
          abs_of_nonneg (sub_nonneg.2 (by exact_mod_cast h))]
    rw [habs]
    push_cast
    ring
  · norm_num [normalizedDistance, mismatches]
  · norm_num [normalizedSimilarity, normalizedDistance, mismatches]

/-- Claim C4: normalizedDistance of two empty sequences is 0 (no division by
zero occurs), and normalizedDistance of any sequence with itself is 0. -/
theorem claim4_empty_and_self :
    (∀ a : List α, normalizedDistance a a = 0) ∧
    normalizedDistance ([] : List α) [] = 0 := by
  constructor
  · intro a
    unfold normalizedDistance
    simp
  · unfold normalizedDistance
    simp

/-- Claim C5: normalizedDistance always lies in the interval from 0 to 1, and
normalizedSimilarity, equal to one minus normalizedDistance, does too. -/
theorem claim5_range : ∀ a b : List α,
    0 ≤ normalizedDistance a b ∧ normalizedDistance a b ≤ 1 ∧
    normalizedSimilarity a b = 1 - normalizedDistance a b ∧
    0 ≤ normalizedSimilarity a b ∧ normalizedSimilarity a b ≤ 1 := by
  intro a b
  have h0 : 0 ≤ normalizedDistance a b := by
    rw [normalizedDistance_eq]
    positivity
  have h1 : normalizedDistance a b ≤ 1 := by
    rw [normalizedDistance_eq]
    by_cases hM : max a.length b.length = 0
    · have hc : countDiff a b = 0 := by
        have h := countDiff_le_min a b
        omega
      simp [hM, hc]
    · have hMpos : (0 : ℚ) < ((max a.length b.length : ℕ) : ℚ) := by
        exact_mod_cast Nat.pos_of_ne_zero hM
      rw [div_le_one hMpos]
      have hnum : max a.length b.length - min a.length b.length + countDiff a b
          ≤ max a.length b.length := by
        have h := countDiff_le_min a b
        omega
      exact_mod_cast hnum
  refine ⟨h0, h1, rfl, ?_, ?_⟩
  · unfold normalizedSimilarity
    linarith
  · unfold normalizedSimilarity
    linarith

/-- Claim C6: bitwise equals the population count of the xor of the two 32-bit
operand patterns; in particular bitwise 1 2 is 2, and bitwise is symmetric. -/
theorem claim6_bitwise_popcount :
    (∀ a b : ℤ, bitwise a b = popcount (int32Pattern a ^^^ int32Pattern b)) ∧
    bitwise 1 2 = 2 ∧ (∀ a b : ℤ, bitwise a b = bitwise b a) := by
  refine ⟨fun a b => bitLoop_eq_popcount _, ?_, fun a b => ?_⟩
  · show bitLoop (int32Pattern 1 ^^^ int32Pattern 2) = 2
    have h : int32Pattern 1 ^^^ int32Pattern 2 = 3 := by decide
    rw [h, bitLoop_eq_fuel 32 3 (popcount_le 32 3 (by norm_num))]
    decide
  · unfold bitwise
    rw [Nat.xor_comm]

/-- Claim C7: the clear-lowest-set-bit loop of bitwise terminates on every
pair of integer operands (bitLoop is a total function, its recursion measure
being the strictly decreasing loop variable), the returned value counts the
iterations performed, and it is a natural number at most the bit width 32. -/
theorem claim7_bitwise_le_width : ∀ a b : ℤ, bitwise a b ≤ 32 := by
  intro a b
  unfold bitwise
  rw [bitLoop_eq_popcount]
  exact popcount_le 32 _ (Nat.xor_lt_two_pow (int32Pattern_lt a) (int32Pattern_lt b))

/-- Claim C8: on equal-length sequences, the distances hamming returns obey
the triangle inequality, and hamming is symmetric in its arguments. -/
theorem claim8_hamming_metric :
    (∀ a b c : List α, a.length = b.length → b.length = c.length →
      ∀ x y z, hamming a b = Except.ok x → hamming b c = Except.ok y →
        hamming a c = Except.ok z → z ≤ x + y) ∧
    (∀ a b : List α, hamming a b = hamming b a) := by
  constructor
  · intro a b c h1 h2 x y z hx hy hz
    rw [hamming_eq_ok h1] at hx
    rw [hamming_eq_ok h2] at hy
    rw [hamming_eq_ok (h1.trans h2)] at hz
    injection hx with hx'
    injection hy with hy'
    injection hz with hz'
    subst hx' hy' hz'
    exact mismatches_triangle a b c h1 h2
  · exact hamming_comm

theorem claim8_witness :
    hamming (['a'] : List Char) ['b'] = Except.ok 1 ∧
    hamming (['b'] : List Char) ['a'] = Except.ok 1 ∧
    hamming (['a'] : List Char) ['a'] = Except.ok 0 ∧ (0 : ℕ) ≤ 1 + 1 :=
  ⟨by rfl, by rfl, by rfl,
    claim8_hamming_metric.1 ['a'] ['b'] ['a'] rfl rfl 1 1 0 (by rfl) (by rfl) (by rfl)⟩

/-- Claim C9: normalizedDistance is symmetric in its two arguments, because
the implementation swaps them so the shorter one is scanned. -/
theorem claim9_normalized_symm : ∀ a b : List α,
    normalizedDistance a b = normalizedDistance b a := by
  intro a b
  rw [normalizedDistance_eq, normalizedDistance_eq, Nat.max_comm a.length b.length,
    Nat.min_comm a.length b.length, countDiff_comm a b]

/-- Claim C10: bitwise works on the 32-bit patterns of its operands: the
distance of -1 and 0 is 32, and shifting either operand by any multiple of
2^32 (that is, changing bits above position 31) never changes the result. -/
theorem claim10_int32 :
    bitwise (-1) 0 = 32 ∧
    (∀ a b k l : ℤ, bitwise (a + 2 ^ 32 * k) (b + 2 ^ 32 * l) = bitwise a b) := by
  constructor
  · show bitLoop (int32Pattern (-1) ^^^ int32Pattern 0) = 32
    have h : int32Pattern (-1) ^^^ int32Pattern 0 = 4294967295 := by decide
    rw [h, bitLoop_eq_fuel 32 4294967295 (popcount_le 32 _ (by norm_num))]
    decide
  · intro a b k l
    unfold bitwise int32Pattern
    rw [Int.add_mul_emod_self_left, Int.add_mul_emod_self_left]

end Talisman
